import Mathlib

/-!
Shallow embedding of the qwer-plugins version managers
(`src/go_plugin.py`, `src/node_plugin.py`).

Strings are modelled as `List Char`; Python `str.split`, `";".join`,
`sub in s` and `s.lower()` are embedded below with Python's semantics.
The Windows registry value `HKCU\Environment\Path` (the persisted PATH)
is an `Option (List Char)`: `none` models an absent value
(`winreg.QueryValueEx` raising `FileNotFoundError`).
External effects (HTTP, zipfile, the filesystem write performed by
`zipfile.extractall`) enter as explicit outcome parameters.
-/

def str (s : String) : List Char := s.data

/-- `hasPfx pre s` is Python's `s.startswith(pre)`. -/
def hasPfx : List Char → List Char → Bool
  | [], _ => true
  | _ :: _, [] => false
  | a :: pre, b :: s => a == b && hasPfx pre s

/-- `hasSub sub s` is Python's `sub in s` (substring containment). -/
def hasSub (sub : List Char) : List Char → Bool
  | [] => hasPfx sub []
  | b :: s => hasPfx sub (b :: s) || hasSub sub s

/-- Python's `s.lower()` (per-character, as used on ASCII path strings). -/
def lowerStr (s : List Char) : List Char := s.map Char.toLower

/-- Helper for `splitOnChar`: prepend a character to the first piece. -/
def consHead (a : Char) : List (List Char) → List (List Char)
  | [] => [[a]]
  | h :: t => (a :: h) :: t

/-- Python's `s.split(c)` for a one-character separator; `"".split(c) = [""]`. -/
def splitOnChar (c : Char) : List Char → List (List Char)
  | [] => [[]]
  | a :: s => if a = c then [] :: splitOnChar c s else consHead a (splitOnChar c s)

/-- Python's `c.join(parts)` for a one-character separator. -/
def joinSep (c : Char) : List (List Char) → List Char
  | [] => []
  | [p] => p
  | p :: q :: ps => p ++ c :: joinSep c (q :: ps)

/-- Fuel-driven worker for `splitOnStr`; the fuel bounds the scan length. -/
def splitOnStrF (sep : List Char) : Nat → List Char → List (List Char)
  | 0, s => [s]
  | fuel + 1, s =>
    if sep ≠ [] ∧ hasPfx sep s = true then
      [] :: splitOnStrF sep fuel (s.drop sep.length)
    else
      match s with
      | [] => [[]]
      | a :: rest => consHead a (splitOnStrF sep fuel rest)

/-- Python's `s.split(sep)` for a multi-character separator. -/
def splitOnStr (sep s : List Char) : List (List Char) :=
  splitOnStrF sep (s.length + 1) s

/-- Python exception kinds raised/caught by the plugins. -/
inductive ExnKind : Type
  | fileNotFound
  | indexError
  | badZipFile
  | generic (msg : List Char)
  deriving DecidableEq

/-- Outcome of a Python call: a value, or an uncaught exception. -/
inductive PyResult (α : Type) : Type
  | ok (a : α)
  | exn (e : ExnKind)
  deriving DecidableEq

/-- Names of the immediate subdirectories of an install root. -/
def dirNames (dirs : List (List Char × Nat)) : List (List Char) := dirs.map Prod.fst

/-- `zipfile.extractall` into a (possibly pre-existing) directory:
the directory named `v` now holds `n` entries. -/
def upsertDir (v : List Char) (n : Nat) (dirs : List (List Char × Nat)) :
    List (List Char × Nat) :=
  dirs.filter (fun d => !(d.1 == v)) ++ [(v, n)]

/-- Writing a file named `f` into a directory listing. -/
def addFile (f : List Char) (files : List (List Char)) : List (List Char) :=
  if f ∈ files then files else files ++ [f]

namespace GoPlugin

/-- Observable state of a `GoPlugin` instance:
`dirs`/`files` are the immediate subdirectories (with entry counts) and
files of `go_dir`; `regPath` is the persisted user `Path` registry value;
`envPath` is the process `os.environ["PATH"]`. -/
structure St : Type where
  dirs : List (List Char × Nat)
  files : List (List Char)
  regPath : Option (List Char)
  envPath : Option (List Char)
  deriving DecidableEq

def goTok : List Char := str "go"

def binTok : List Char := str "bin"

/-- The read-side signature test: `"go" in part.lower() and "bin" in part.lower()`. -/
def goSig (part : List Char) : Bool :=
  hasSub goTok (lowerStr part) && hasSub binTok (lowerStr part)

/-- The write-side keep test of `_remove_all_go_paths`:
`"go" not in path.lower() or "bin" not in path.lower()`. -/
def keepGo (part : List Char) : Bool :=
  !hasSub goTok (lowerStr part) || !hasSub binTok (lowerStr part)

/-- `self.go_dir = self.packages_dir / "go"` as a Windows path string. -/
def go_dir (pk : List Char) : List Char := pk ++ str "\\go"

/-- `get_installed_versions`: subdirectories of `go_dir` whose name starts with `"go"`. -/
def get_installed_versions (st : St) : List (List Char) :=
  (dirNames st.dirs).filter (fun n => hasPfx goTok n)

/-- `part.split("go\\")[1].split("\\bin")[0]`; `[1]` raises `IndexError`
when `"go\"` does not occur in the segment. -/
def extract_version (part : List Char) : PyResult (List Char) :=
  match (splitOnStr (str "go\\") part)[1]? with
  | none => .exn .indexError
  | some piece => .ok ((splitOnStr (str "\\bin") piece).headD [])

/-- The scan loop of `get_current_version`: first signature-matching
segment wins; its version extraction may raise. -/
def first_go_match : List (List Char) → PyResult (Option (List Char))
  | [] => .ok none
  | p :: ps =>
    if goSig p then
      match extract_version p with
      | .ok v => .ok (some v)
      | .exn e => .exn e
    else first_go_match ps

/-- `get_current_version` over the persisted `Path` value; an absent value
(`FileNotFoundError`) is caught and yields `none`. -/
def get_current_version (reg : Option (List Char)) : PyResult (Option (List Char)) :=
  match reg with
  | none => .ok none
  | some s => first_go_match (splitOnChar ';' s)

/-- The string rewrite of `_remove_all_go_paths`:
`";".join(p for p in path.split(";") if "go" not in p.lower() or "bin" not in p.lower())`. -/
def remove_all_go_paths_str (s : List Char) : List Char :=
  joinSep ';' ((splitOnChar ';' s).filter keepGo)

/-- `_remove_all_go_paths`: rewrites the persisted `Path`; when the value is
absent the `FileNotFoundError` is swallowed and nothing is written. -/
def remove_all_go_paths : Option (List Char) → Option (List Char)
  | none => none
  | some s => some (remove_all_go_paths_str s)

/-- `_update_environment_variable`: appends `binp` unless it already occurs
as a substring; an absent value is created holding exactly `binp`. -/
def update_environment_variable (binp : List Char) :
    Option (List Char) → Option (List Char)
  | none => some binp
  | some s =>
    if hasSub binp s then some s
    else if s = [] then some binp
    else some (s ++ ';' :: binp)

/-- `str(install_dir / "bin")` as computed by `use_version`. -/
def use_bin_path (pk v : List Char) : List Char :=
  go_dir pk ++ str "\\" ++ v ++ str "\\bin"

/-- `use_version`: requires the version directory to exist, then performs
`_remove_all_go_paths` followed by `_update_environment_variable` on the
persisted `Path`. -/
def use_version (pk v : List Char) (st : St) : List Char × St :=
  if v ∈ dirNames st.dirs then
    (str "已切换到 Go " ++ v,
     { st with
        regPath := update_environment_variable (use_bin_path pk v)
          (remove_all_go_paths st.regPath) })
  else (str "未找到 Go " ++ v, st)

/-- `uninstall`: `shutil.rmtree(install_dir)`; a `PermissionError` (modelled
by `permErr = some e`) is caught and reported. The persisted `Path` is not
touched. Version-named entries of `go_dir` are directories in this model,
so `install_dir.exists()` is a lookup in `dirs`. -/
def uninstall (v : List Char) (permErr : Option (List Char)) (st : St) :
    List Char × St :=
  if v ∈ dirNames st.dirs then
    match permErr with
    | none =>
      (str "已卸载 Go " ++ v, { st with dirs := st.dirs.filter (fun d => !(d.1 == v)) })
    | some e => (str "卸载失败: " ++ e, st)
  else (str "未找到 Go " ++ v, st)

/-- Outcome of the external steps of `install` (download thread, zip
validation, `extractall`, `os.path.exists` on the extracted bin dir):
`dlFailed` means the thread errored and never created the file, so
`_is_valid_zip` hits a missing file; `extractFailed pd` is an `extractall`
exception leaving `pd` as the partial directory state (`none` = the
directory was never created, `some k` = it holds `k` entries). -/
inductive InstallOutcome : Type
  | dlFailed
  | invalidZip
  | extractFailed (pd : Option Nat)
  | extracted (entries : Nat) (binExists : Bool)
  deriving DecidableEq

/-- `f"{version}.windows-amd64.zip"`. -/
def zip_filename (v : List Char) : List Char := v ++ str ".windows-amd64.zip"

/-- `str(extract_dir / "go" / "bin")` as computed by `install`. -/
def install_bin_path (pk v : List Char) : List Char :=
  go_dir pk ++ str "\\" ++ v ++ str "\\go\\bin"

/-- `install`: download (the `_download_file` stub always reports started,
so the `"下载失败"` branch is unreachable), wait, validate, extract, then
`_set_go_path` which clears the persisted `Path` of go segments and
prepends the new bin dir to the process environment `PATH` only. -/
def install (pk v : List Char) (o : InstallOutcome) (st : St) :
    PyResult (List Char) × St :=
  match o with
  | .dlFailed => (.exn .fileNotFound, st)
  | .invalidZip =>
    (.ok (str "下载的文件无效"), { st with files := addFile (zip_filename v) st.files })
  | .extractFailed pd =>
    let st1 := { st with files := addFile (zip_filename v) st.files }
    (.ok (str "解压失败"),
      match pd with
      | none => st1
      | some k => { st1 with dirs := upsertDir v k st1.dirs })
  | .extracted n binEx =>
    let st1 := { st with
      files := addFile (zip_filename v) st.files,
      dirs := upsertDir v n st.dirs }
    if binEx then
      (.ok (str "Go " ++ v ++ str " 安装完成"),
       { st1 with
          regPath := remove_all_go_paths st1.regPath,
          envPath := some (install_bin_path pk v ++ ';' :: st1.envPath.getD []) })
    else (.ok (str "Go " ++ v ++ str " 安装完成"), st1)

end GoPlugin

/-- A file on disk as seen by `zipfile.ZipFile(path)`. -/
inductive FileState : Type
  | absent
  | present (bytes : List Nat)
  deriving DecidableEq

/-- The `zipfile` collaborator: for the contents of a *present* file,
`openTest` is the combined outcome of `ZipFile(path)` + `testzip()` —
an exception, or `testzip`'s answer (first corrupt entry name, or `none`). -/
structure ZipLib : Type where
  openTest : List Nat → PyResult (Option (List Char))

/-- `_is_valid_zip` (identical in both plugins): only `zipfile.BadZipFile`
is caught; opening an absent path raises `FileNotFoundError`, which
propagates. -/
def is_valid_zip (lib : ZipLib) : FileState → PyResult Bool
  | .absent => .exn .fileNotFound
  | .present bs =>
    match lib.openTest bs with
    | .exn .badZipFile => .ok false
    | .exn e => .exn e
    | .ok none => .ok true
    | .ok (some _) => .ok false

/-- A signal emitted by a `DownloadThread`. -/
inductive DlSignal : Type
  | errorSig (msg : List Char)
  | finishedSig (ok : Bool)
  deriving DecidableEq

/-- What `request_manager.get(url, stream=True)` plus the chunk-write loop
did: an error string, or a stream whose write loop either completed
(`none`) or raised (`some e`). -/
inductive HttpGetResult : Type
  | errString (msg : List Char)
  | stream (writeErr : Option (List Char))
  deriving DecidableEq

namespace GoDownloadThread

/-- `DownloadThread.run` of `go_plugin.py`: the emitted signals, in order. -/
def run : HttpGetResult → List DlSignal
  | .errString m => [.errorSig m, .finishedSig false]
  | .stream none => [.finishedSig true]
  | .stream (some e) => [.errorSig (str "下载失败: " ++ e), .finishedSig false]

end GoDownloadThread

namespace NodeDownloadThread

/-- `DownloadThread.run` of `node_plugin.py`: on an error-string response it
emits error+finished, then `raise`s, and its own `except` emits both again. -/
def run : HttpGetResult → List DlSignal
  | .errString m =>
    [.errorSig m, .finishedSig false,
     .errorSig (str "下载失败: " ++ m), .finishedSig false]
  | .stream none => [.finishedSig true]
  | .stream (some e) => [.errorSig (str "下载失败: " ++ e), .finishedSig false]

end NodeDownloadThread

/-- Is a signal a terminal outcome (`finished`)? -/
def isTerminal : DlSignal → Bool
  | .finishedSig _ => true
  | _ => false

/-- Is a signal a terminal success? -/
def isSuccessSig : DlSignal → Bool
  | .finishedSig b => b
  | _ => false

/-- Is a signal a terminal failure? -/
def isFailureSig : DlSignal → Bool
  | .finishedSig b => !b
  | _ => false

namespace NodePlugin

/-- Observable filesystem state of a `NodePlugin` instance: immediate
subdirectories (with entry counts) and files of `node_dir`. -/
structure St : Type where
  dirs : List (List Char × Nat)
  files : List (List Char)
  deriving DecidableEq

/-- `version.split(" ")[0]` — strips an LTS annotation. -/
def clean_version (v : List Char) : List Char := (splitOnStr (str " ") v).headD []

/-- `f"node-{clean_version}.zip"`. -/
def node_zip_name (cv : List Char) : List Char := str "node-" ++ cv ++ str ".zip"

/-- `install`: builds the URL, starts the download thread and returns
immediately; at the moment `install` returns, the filesystem state is
unchanged (extraction happens later in `_handle_download_complete`). -/
def install (v : List Char) (st : St) : List Char × St :=
  let _ := clean_version v
  (str "下载已开始", st)

/-- Outcome of the external steps of `_handle_download_complete`
(validator verdict, `extractall`, `unlink`); `extractRaises pd m` is an
uncaught extraction exception with partial directory state `pd`. -/
inductive NodeZipOutcome : Type
  | invalidZip
  | extractRaises (pd : Option Nat) (msg : List Char)
  | extractOk (entries : Nat) (unlinkFails : Bool)
  deriving DecidableEq

/-- `_handle_download_complete`: raises on download failure or invalid zip
(removing nothing); extracts (uncaught exceptions propagate, partial
directory left in place); only after successful extraction is the
downloaded zip unlinked (unlink errors are logged and swallowed). -/
def handle_download_complete (cv : List Char) (success : Bool)
    (o : NodeZipOutcome) (st : St) : PyResult Unit × St :=
  if !success then (.exn (.generic (str "下载失败")), st)
  else
    match o with
    | .invalidZip => (.exn (.generic (str "下载的文件不是有效的 ZIP 文件")), st)
    | .extractRaises pd m =>
      (.exn (.generic m),
        match pd with
        | none => st
        | some k => { st with dirs := upsertDir cv k st.dirs })
    | .extractOk n ul =>
      let st1 : St := { st with dirs := upsertDir cv n st.dirs }
      (.ok (),
        if ul then st1
        else { st1 with files := st1.files.filter (fun f => !(f == node_zip_name cv)) })

/-- `get_installed_versions`: every immediate subdirectory name (no prefix
filter, unlike the go plugin). -/
def get_installed_versions (st : St) : List (List Char) := dirNames st.dirs

end NodePlugin

/-- Segments of an optional PATH value: an absent value has no segments. -/
def pathSegs : Option (List Char) → List (List Char)
  | none => []
  | some s => splitOnChar ';' s

/-- A `ZipLib` used for concrete evaluations: an empty file is a
`BadZipFile`, anything else opens cleanly with all CRCs good. -/
def demoZipLib : ZipLib :=
  ⟨fun bs => if bs = [] then .exn .badZipFile else .ok none⟩

/-- A concrete go state with two installed versions, go1.22.3 active. -/
def goStA : GoPlugin.St :=
  ⟨[(str "go1.22.3", 5), (str "go1.21.0", 4)], [],
   some (str "C:\\w;C:\\pkgs\\go\\go1.22.3\\bin"), none⟩

/-- A concrete go state with nothing installed. -/
def goStEmpty : GoPlugin.St := ⟨[], [], some (str "C:\\w"), some (str "C:\\w")⟩

-- sanity examples for the string embedding (Python semantics)
example : splitOnChar ';' (str "a;b;;c") = [str "a", str "b", [], str "c"] := by decide
example : splitOnChar ';' [] = [[]] := by decide
example : joinSep ';' [str "a", [], str "b"] = str "a;;b" := by decide
example : splitOnStr (str "aa") (str "aaa") = [[], str "a"] := by decide
example : splitOnStr (str "go\\") (str "C:\\pkgs\\go\\go1.22.3\\bin")
    = [str "C:\\pkgs\\", str "go1.22.3\\bin"] := by decide
example : hasSub (str "go") (lowerStr (str "C:\\PKGS\\GO\\go1\\BIN")) = true := by decide
example : hasSub (str "x") (str "ab") = false := by decide

/-! ### Lemmas about the string primitives -/

theorem hasPfx_nil_left (s : List Char) : hasPfx [] s = true := rfl

theorem hasPfx_nil_right (a : Char) (pre : List Char) :
    hasPfx (a :: pre) [] = false := rfl

theorem eq_nil_of_hasPfx_nil {sub : List Char} (h : hasPfx sub [] = true) :
    sub = [] := by
  cases sub with
  | nil => rfl
  | cons a pre => simp [hasPfx] at h

theorem hasSub_nil_left (s : List Char) : hasSub [] s = true := by
  cases s with
  | nil => rfl
  | cons b s => simp [hasSub, hasPfx]

theorem hasSub_nil_right {sub : List Char} (h : hasSub sub [] = true) : sub = [] :=
  eq_nil_of_hasPfx_nil h

theorem hasSub_of_hasPfx {sub s : List Char} (h : hasPfx sub s = true) :
    hasSub sub s = true := by
  cases s with
  | nil => exact h
  | cons b s => simp [hasSub, h]

theorem hasSub_cons_of_hasSub {sub s : List Char} (a : Char)
    (h : hasSub sub s = true) : hasSub sub (a :: s) = true := by
  simp [hasSub, h]

theorem hasPfx_trans {x y z : List Char} (hxy : hasPfx x y = true)
    (hyz : hasPfx y z = true) : hasPfx x z = true := by
  induction x generalizing y z with
  | nil => exact hasPfx_nil_left z
  | cons a x ih =>
    cases y with
    | nil => exact absurd hxy (by simp [hasPfx])
    | cons b y =>
      cases z with
      | nil => exact absurd hyz (by simp [hasPfx])
      | cons c z =>
        simp only [hasPfx, Bool.and_eq_true, beq_iff_eq] at hxy hyz ⊢
        exact ⟨hxy.1.trans hyz.1, ih hxy.2 hyz.2⟩

theorem hasSub_of_hasSub_hasPfx {x y z : List Char} (hxy : hasSub x y = true)
    (hyz : hasPfx y z = true) : hasSub x z = true := by
  induction y generalizing z with
  | nil =>
    have hx : x = [] := hasSub_nil_right hxy
    subst hx; exact hasSub_nil_left z
  | cons b y ih =>
    cases z with
    | nil => exact absurd hyz (by simp [hasPfx])
    | cons c z =>
      simp only [hasSub, Bool.or_eq_true] at hxy
      rcases hxy with hpfx | hsub
      · exact hasSub_of_hasPfx (hasPfx_trans hpfx hyz)
      · simp only [hasPfx, Bool.and_eq_true] at hyz
        exact hasSub_cons_of_hasSub c (ih hsub hyz.2)

theorem hasSub_trans {x y z : List Char} (hxy : hasSub x y = true)
    (hyz : hasSub y z = true) : hasSub x z = true := by
  induction z with
  | nil =>
    have hy : y = [] := hasSub_nil_right hyz
    subst hy; exact hxy
  | cons c z ih =>
    simp only [hasSub, Bool.or_eq_true] at hyz
    rcases hyz with hpfx | hsub
    · exact hasSub_of_hasSub_hasPfx hxy hpfx
    · exact hasSub_cons_of_hasSub c (ih hsub)

theorem hasPfx_map (f : Char → Char) {x y : List Char} (h : hasPfx x y = true) :
    hasPfx (x.map f) (y.map f) = true := by
  induction x generalizing y with
  | nil => exact hasPfx_nil_left _
  | cons a x ih =>
    cases y with
    | nil => exact absurd h (by simp [hasPfx])
    | cons b y =>
      simp only [hasPfx, Bool.and_eq_true, beq_iff_eq] at h
      simp only [List.map_cons, hasPfx, Bool.and_eq_true, beq_iff_eq]
      exact ⟨by rw [h.1], ih h.2⟩

theorem hasSub_map (f : Char → Char) {x y : List Char} (h : hasSub x y = true) :
    hasSub (x.map f) (y.map f) = true := by
  induction y with
  | nil =>
    have hx : x = [] := hasSub_nil_right h
    subst hx; exact hasSub_nil_left _
  | cons b y ih =>
    simp only [hasSub, Bool.or_eq_true] at h
    rcases h with hpfx | hsub
    · exact hasSub_of_hasPfx (hasPfx_map f hpfx)
    · simpa using hasSub_cons_of_hasSub (f b) (ih hsub)

theorem hasPfx_append_of_hasPfx {x s : List Char} (t : List Char)
    (h : hasPfx x s = true) : hasPfx x (s ++ t) = true := by
  induction x generalizing s with
  | nil => exact hasPfx_nil_left _
  | cons a x ih =>
    cases s with
    | nil => exact absurd h (by simp [hasPfx])
    | cons b s =>
      simp only [hasPfx, Bool.and_eq_true] at h ⊢
      exact ⟨h.1, ih h.2⟩

theorem hasSub_append_left {x s : List Char} (t : List Char)
    (h : hasSub x s = true) : hasSub x (s ++ t) = true := by
  induction s with
  | nil =>
    have hx : x = [] := hasSub_nil_right h
    subst hx; exact hasSub_nil_left _
  | cons b s ih =>
    simp only [hasSub, Bool.or_eq_true] at h
    rcases h with hpfx | hsub
    · exact hasSub_of_hasPfx (hasPfx_append_of_hasPfx t hpfx)
    · exact hasSub_cons_of_hasSub b (ih hsub)

theorem hasSub_append_right {x t : List Char} (s : List Char)
    (h : hasSub x t = true) : hasSub x (s ++ t) = true := by
  induction s with
  | nil => exact h
  | cons b s ih => exact hasSub_cons_of_hasSub b ih

theorem hasPfx_of_hasPfx_append_sep {c : Char} {sub s t : List Char}
    (hc : c ∉ sub) (h : hasPfx sub (s ++ c :: t) = true) :
    hasPfx sub s = true := by
  induction sub generalizing s with
  | nil => exact hasPfx_nil_left s
  | cons a sub ih =>
    cases s with
    | nil =>
      simp only [List.nil_append, hasPfx, Bool.and_eq_true, beq_iff_eq] at h
      exact absurd (h.1 ▸ List.mem_cons_self a sub) hc
    | cons b s =>
      simp only [List.cons_append, hasPfx, Bool.and_eq_true] at h ⊢
      exact ⟨h.1, ih (fun hm => hc (List.mem_cons_of_mem a hm)) h.2⟩

theorem hasSub_append_sep {c : Char} {sub s t : List Char} (hc : c ∉ sub)
    (h : hasSub sub (s ++ c :: t) = true) :
    hasSub sub s = true ∨ hasSub sub t = true := by
  induction s with
  | nil =>
    simp only [List.nil_append, hasSub, Bool.or_eq_true] at h
    rcases h with hpfx | hsub
    · cases sub with
      | nil => exact Or.inl (hasSub_nil_left [])
      | cons a sub =>
        simp only [hasPfx, Bool.and_eq_true, beq_iff_eq] at hpfx
        exact absurd (hpfx.1 ▸ List.mem_cons_self a sub) hc
    · exact Or.inr hsub
  | cons b s ih =>
    simp only [List.cons_append, hasSub, Bool.or_eq_true] at h
    rcases h with hpfx | hsub
    · exact Or.inl (hasSub_of_hasPfx
        (hasPfx_of_hasPfx_append_sep hc (by simpa using hpfx)))
    · rcases ih hsub with h1 | h2
      · exact Or.inl (hasSub_cons_of_hasSub b h1)
      · exact Or.inr h2

theorem consHead_ne_nil (a : Char) (l : List (List Char)) : consHead a l ≠ [] := by
  cases l <;> simp [consHead]

theorem splitOnChar_ne_nil (c : Char) (s : List Char) : splitOnChar c s ≠ [] := by
  induction s with
  | nil => simp [splitOnChar]
  | cons a s ih =>
    by_cases h : a = c
    · simp [splitOnChar, h]
    · simp only [splitOnChar, if_neg h]
      exact consHead_ne_nil a _

theorem not_mem_of_mem_splitOnChar {c : Char} {s p : List Char}
    (h : p ∈ splitOnChar c s) : c ∉ p := by
  induction s generalizing p with
  | nil =>
    simp only [splitOnChar, List.mem_singleton] at h
    subst h; exact List.not_mem_nil c
  | cons a s ih =>
    by_cases hac : a = c
    · simp only [splitOnChar, if_pos hac, List.mem_cons] at h
      rcases h with h | h
      · subst h; exact List.not_mem_nil c
      · exact ih h
    · simp only [splitOnChar, if_neg hac] at h
      rcases hsp : splitOnChar c s with _ | ⟨hd, tl⟩
      · exact absurd hsp (splitOnChar_ne_nil c s)
      · rw [hsp] at h
        simp only [consHead, List.mem_cons] at h
        rcases h with h | h
        · subst h
          intro hm
          rcases List.mem_cons.mp hm with h1 | h1
          · exact hac h1.symm
          · exact ih (hsp ▸ List.mem_cons_self hd tl) h1
        · exact ih (hsp ▸ List.mem_cons_of_mem hd h)

theorem splitOnChar_of_not_mem {c : Char} {p : List Char} (h : c ∉ p) :
    splitOnChar c p = [p] := by
  induction p with
  | nil => rfl
  | cons a p ih =>
    have hac : a ≠ c := fun he => h (he ▸ List.mem_cons_self a p)
    have hcp : c ∉ p := fun hm => h (List.mem_cons_of_mem a hm)
    simp [splitOnChar, if_neg hac, ih hcp, consHead]

theorem splitOnChar_append_sep {c : Char} {p : List Char} (t : List Char)
    (h : c ∉ p) : splitOnChar c (p ++ c :: t) = p :: splitOnChar c t := by
  induction p with
  | nil => simp [splitOnChar]
  | cons a p ih =>
    have hac : a ≠ c := fun he => h (he ▸ List.mem_cons_self a p)
    have hcp : c ∉ p := fun hm => h (List.mem_cons_of_mem a hm)
    have hstep : splitOnChar c ((a :: p) ++ c :: t)
        = consHead a (splitOnChar c (p ++ c :: t)) := by
      simp only [List.cons_append, splitOnChar, if_neg hac, List.append_eq]
    rw [hstep, ih hcp]
    rfl

theorem joinSep_cons_cons (c : Char) (p q : List Char) (ps : List (List Char)) :
    joinSep c (p :: q :: ps) = p ++ c :: joinSep c (q :: ps) := rfl

theorem joinSep_concat {c : Char} {ps : List (List Char)} (b : List Char)
    (h : ps ≠ []) : joinSep c (ps ++ [b]) = joinSep c ps ++ c :: b := by
  induction ps with
  | nil => exact absurd rfl h
  | cons p ps ih =>
    cases ps with
    | nil => rfl
    | cons q ps' =>
      calc joinSep c ((p :: q :: ps') ++ [b])
          = p ++ c :: joinSep c ((q :: ps') ++ [b]) := rfl
        _ = p ++ c :: (joinSep c (q :: ps') ++ c :: b) := by rw [ih (by simp)]
        _ = (p ++ c :: joinSep c (q :: ps')) ++ c :: b := by
            simp [List.append_assoc]
        _ = joinSep c (p :: q :: ps') ++ c :: b := rfl

theorem splitOnChar_joinSep {c : Char} {parts : List (List Char)}
    (hne : parts ≠ []) (hfree : ∀ p ∈ parts, c ∉ p) :
    splitOnChar c (joinSep c parts) = parts := by
  induction parts with
  | nil => exact absurd rfl hne
  | cons p ps ih =>
    cases ps with
    | nil => exact splitOnChar_of_not_mem (hfree p (List.mem_cons_self p []))
    | cons q ps' =>
      rw [joinSep_cons_cons,
        splitOnChar_append_sep _ (hfree p (List.mem_cons_self p _)),
        ih (by simp) (fun r hr => hfree r (List.mem_cons_of_mem p hr))]

theorem hasSub_joinSep_exists {c : Char} {sub : List Char}
    {parts : List (List Char)} (hc : c ∉ sub) (hne : sub ≠ [])
    (h : hasSub sub (joinSep c parts) = true) :
    ∃ p ∈ parts, hasSub sub p = true := by
  induction parts with
  | nil => exact absurd (hasSub_nil_right h) hne
  | cons p ps ih =>
    cases ps with
    | nil => exact ⟨p, List.mem_cons_self p [], h⟩
    | cons q ps' =>
      rw [joinSep_cons_cons] at h
      rcases hasSub_append_sep hc h with h1 | h2
      · exact ⟨p, List.mem_cons_self p _, h1⟩
      · rcases ih h2 with ⟨r, hr, hrs⟩
        exact ⟨r, List.mem_cons_of_mem p hr, hrs⟩

/-! ### Lemmas about the go PATH editor -/

namespace GoPlugin

theorem keepGo_eq_not_goSig (p : List Char) : keepGo p = !goSig p := by
  simp [keepGo, goSig, Bool.not_and]

theorem goSig_of_hasSub {B p : List Char} (h : hasSub B p = true)
    (hB : goSig B = true) : goSig p = true := by
  have hl : hasSub (lowerStr B) (lowerStr p) = true := hasSub_map Char.toLower h
  simp only [goSig, Bool.and_eq_true] at hB ⊢
  exact ⟨hasSub_trans hB.1 hl, hasSub_trans hB.2 hl⟩

theorem filter_goSig_eq_nil_of_keep {fl : List (List Char)}
    (h : ∀ q ∈ fl, keepGo q = true) : fl.filter goSig = [] := by
  induction fl with
  | nil => rfl
  | cons q fl ih =>
    have hq : keepGo q = true := h q (List.mem_cons_self q fl)
    rw [keepGo_eq_not_goSig] at hq
    have hsig : goSig q = false := by
      cases hg : goSig q
      · rfl
      · rw [hg] at hq; exact absurd hq (by simp)
    simp [List.filter, hsig, ih (fun r hr => h r (List.mem_cons_of_mem q hr))]

theorem hasSub_bin_joinSep_eq_false {B : List Char} {fl : List (List Char)}
    (hkeep : ∀ q ∈ fl, keepGo q = true) (hBs : goSig B = true)
    (hBc : ';' ∉ B) (hB0 : B ≠ []) :
    hasSub B (joinSep ';' fl) = false := by
  cases h : hasSub B (joinSep ';' fl)
  · rfl
  · exfalso
    rcases hasSub_joinSep_exists hBc hB0 h with ⟨q, hq, hqs⟩
    have hsig : goSig q = true := goSig_of_hasSub hqs hBs
    have hk : keepGo q = true := hkeep q hq
    rw [keepGo_eq_not_goSig, hsig] at hk
    exact absurd hk (by simp)

/-- The two possible shapes of the persisted `Path` after
`_remove_all_go_paths` + `_update_environment_variable` with a
go-signature bin path `B`: exactly `B`, or a cleaned prefix followed by
`;B`. -/
theorem use_transform_shape (B : List Char) (hB0 : B ≠ []) (hBc : ';' ∉ B)
    (hBs : goSig B = true) (p : Option (List Char)) :
    update_environment_variable B (remove_all_go_paths p) = some B ∨
    ∃ fl, fl ≠ [] ∧ (∀ q ∈ fl, ';' ∉ q) ∧ (∀ q ∈ fl, keepGo q = true) ∧
      joinSep ';' fl ≠ [] ∧
      update_environment_variable B (remove_all_go_paths p)
        = some (joinSep ';' fl ++ ';' :: B) := by
  cases p with
  | none => exact Or.inl rfl
  | some s =>
    set fl := (splitOnChar ';' s).filter keepGo with hfl
    have hkeep : ∀ q ∈ fl, keepGo q = true := fun q hq =>
      (List.mem_filter.mp hq).2
    have hfree : ∀ q ∈ fl, ';' ∉ q := fun q hq =>
      not_mem_of_mem_splitOnChar (List.mem_of_mem_filter hq)
    have hnosub : hasSub B (joinSep ';' fl) = false :=
      hasSub_bin_joinSep_eq_false hkeep hBs hBc hB0
    have hra : remove_all_go_paths (some s) = some (joinSep ';' fl) := rfl
    rw [hra]
    by_cases hJ : joinSep ';' fl = []
    · left
      rw [hJ]
      have hBnil : hasSub B [] = false := by
        cases B with
        | nil => exact absurd rfl hB0
        | cons a B' => rfl
      simp [update_environment_variable, hBnil]
    · right
      refine ⟨fl, ?_, hfree, hkeep, hJ, ?_⟩
      · intro hnil
        rw [hnil] at hJ
        exact hJ rfl
      · simp [update_environment_variable, hnosub, hJ]

/-- After the `use_version` PATH rewrite, splitting the persisted `Path`
yields exactly one go-signature segment: the bin path `B` itself. -/
theorem use_transform_unique (B : List Char) (hB0 : B ≠ []) (hBc : ';' ∉ B)
    (hBs : goSig B = true) (p : Option (List Char)) :
    ∃ s', update_environment_variable B (remove_all_go_paths p) = some s' ∧
      (splitOnChar ';' s').filter goSig = [B] := by
  rcases use_transform_shape B hB0 hBc hBs p with h | ⟨fl, hne, hfree, hkeep, hJ, h⟩
  · refine ⟨B, h, ?_⟩
    rw [splitOnChar_of_not_mem hBc]
    simp [List.filter, hBs]
  · refine ⟨joinSep ';' fl ++ ';' :: B, h, ?_⟩
    have hcat : joinSep ';' fl ++ ';' :: B = joinSep ';' (fl ++ [B]) :=
      (joinSep_concat B hne).symm
    have hsplit : splitOnChar ';' (joinSep ';' (fl ++ [B])) = fl ++ [B] := by
      refine splitOnChar_joinSep (by simp) ?_
      intro q hq
      rcases List.mem_append.mp hq with hq | hq
      · exact hfree q hq
      · rw [List.mem_singleton.mp hq]; exact hBc
    rw [hcat, hsplit, List.filter_append, filter_goSig_eq_nil_of_keep hkeep]
    simp [List.filter, hBs]

/-- The `use_version` PATH rewrite is idempotent. -/
theorem use_transform_idem (B : List Char) (hB0 : B ≠ []) (hBc : ';' ∉ B)
    (hBs : goSig B = true) (p : Option (List Char)) :
    update_environment_variable B (remove_all_go_paths
      (update_environment_variable B (remove_all_go_paths p)))
    = update_environment_variable B (remove_all_go_paths p) := by
  have hkeepB : keepGo B = false := by
    rw [keepGo_eq_not_goSig, hBs]; rfl
  rcases use_transform_shape B hB0 hBc hBs p with h | ⟨fl, hne, hfree, hkeep, hJ, h⟩
  · rw [h]
    have hsplit : splitOnChar ';' B = [B] := splitOnChar_of_not_mem hBc
    have hfilter : ([B] : List (List Char)).filter keepGo = [] := by
      simp [List.filter, hkeepB]
    have hBnil : hasSub B [] = false := by
      cases B with
      | nil => exact absurd rfl hB0
      | cons a B' => rfl
    show update_environment_variable B (some (remove_all_go_paths_str B)) = some B
    rw [remove_all_go_paths_str, hsplit, hfilter]
    simp [joinSep, update_environment_variable, hBnil]
  · rw [h]
    have hcat : joinSep ';' fl ++ ';' :: B = joinSep ';' (fl ++ [B]) :=
      (joinSep_concat B hne).symm
    have hsplit : splitOnChar ';' (joinSep ';' (fl ++ [B])) = fl ++ [B] := by
      refine splitOnChar_joinSep (by simp) ?_
      intro q hq
      rcases List.mem_append.mp hq with hq | hq
      · exact hfree q hq
      · rw [List.mem_singleton.mp hq]; exact hBc
    have hfl : (fl ++ [B]).filter keepGo = fl := by
      rw [List.filter_append, List.filter_eq_self.mpr hkeep]
      simp [List.filter, hkeepB]
    have hnosub : hasSub B (joinSep ';' fl) = false :=
      hasSub_bin_joinSep_eq_false hkeep hBs hBc hB0
    show update_environment_variable B
      (some (remove_all_go_paths_str (joinSep ';' fl ++ ';' :: B))) = _
    rw [remove_all_go_paths_str, hcat, hsplit, hfl]
    simp only [update_environment_variable, hnosub, Bool.false_eq_true, if_false,
      if_neg hJ, Option.some.injEq]
    exact hcat

/-- Any PATH value containing no go-signature segment makes the read scan
return `none`. -/
theorem first_go_match_of_no_sig {l : List (List Char)}
    (h : ∀ p ∈ l, goSig p = false) : first_go_match l = .ok none := by
  induction l with
  | nil => rfl
  | cons p ps ih =>
    have hp : goSig p = false := h p (List.mem_cons_self p ps)
    simp only [first_go_match, hp, Bool.false_eq_true, if_false]
    exact ih (fun q hq => h q (List.mem_cons_of_mem p hq))

/-- After `_remove_all_go_paths`, `get_current_version` reads `none`. -/
theorem get_current_version_remove_all (reg : Option (List Char)) :
    get_current_version (remove_all_go_paths reg) = .ok none := by
  cases reg with
  | none => rfl
  | some s =>
    show first_go_match (splitOnChar ';' (remove_all_go_paths_str s)) = .ok none
    set fl := (splitOnChar ';' s).filter keepGo with hfl
    have hkeep : ∀ q ∈ fl, keepGo q = true := fun q hq =>
      (List.mem_filter.mp hq).2
    have hsig : ∀ q ∈ fl, goSig q = false := by
      intro q hq
      have hk := hkeep q hq
      rw [keepGo_eq_not_goSig] at hk
      cases hg : goSig q
      · rfl
      · rw [hg] at hk; exact absurd hk (by simp)
    rcases hflcases : fl with _ | ⟨q, fl'⟩
    · show first_go_match (splitOnChar ';' (joinSep ';' fl)) = .ok none
      rw [hflcases]
      show first_go_match (splitOnChar ';' []) = .ok none
      simp [splitOnChar, first_go_match, goSig, hasSub, hasPfx, goTok, str]
    · show first_go_match (splitOnChar ';' (joinSep ';' fl)) = .ok none
      have hfree : ∀ q ∈ fl, ';' ∉ q := fun r hr =>
        not_mem_of_mem_splitOnChar (List.mem_of_mem_filter hr)
      rw [splitOnChar_joinSep (hflcases ▸ (by simp)) hfree]
      exact first_go_match_of_no_sig hsig

end GoPlugin

/-! ### Properties of the concrete bin-path strings -/

namespace GoPlugin

theorem lowerStr_append (s t : List Char) :
    lowerStr (s ++ t) = lowerStr s ++ lowerStr t := List.map_append _ s t

theorem hasSub_lower_of_hasSub {x s : List Char} (hx : lowerStr x = x)
    (h : hasSub x s = true) : hasSub x (lowerStr s) = true := by
  have := hasSub_map Char.toLower h
  rwa [show x.map Char.toLower = x from hx] at this

theorem use_bin_path_props (pk v : List Char) (hp : ';' ∉ pk) (hv : ';' ∉ v) :
    use_bin_path pk v ≠ [] ∧ ';' ∉ use_bin_path pk v ∧
      goSig (use_bin_path pk v) = true := by
  refine ⟨?_, ?_, ?_⟩
  · intro h
    rcases List.append_eq_nil.mp h with ⟨-, h2⟩
    exact absurd h2 (by decide)
  · intro h
    rw [use_bin_path, go_dir] at h
    simp only [List.mem_append] at h
    rcases h with ((((h | h) | h) | h) | h)
    · exact hp h
    · exact absurd h (by decide)
    · exact absurd h (by decide)
    · exact hv h
    · exact absurd h (by decide)
  · have hgo : hasSub goTok (use_bin_path pk v) = true := by
      rw [use_bin_path, go_dir]
      refine hasSub_append_left _ (hasSub_append_left _ (hasSub_append_left _ ?_))
      exact hasSub_append_right pk (by decide)
    have hbin : hasSub binTok (use_bin_path pk v) = true := by
      rw [use_bin_path]
      exact hasSub_append_right _ (by decide)
    have h1 := hasSub_lower_of_hasSub (by decide) hgo
    have h2 := hasSub_lower_of_hasSub (by decide) hbin
    simp [goSig, h1, h2]

theorem use_bin_path_inj {pk v1 v2 : List Char}
    (h : use_bin_path pk v1 = use_bin_path pk v2) : v1 = v2 := by
  rw [use_bin_path, use_bin_path] at h
  have h1 := List.append_cancel_right h
  exact List.append_cancel_left h1

end GoPlugin

/-! ### Totality analysis of the version-extraction scan -/

theorem splitOnStrF_ne_nil (sep : List Char) (fuel : Nat) (s : List Char) :
    splitOnStrF sep fuel s ≠ [] := by
  cases fuel with
  | zero => simp [splitOnStrF]
  | succ fuel =>
    by_cases h : sep ≠ [] ∧ hasPfx sep s = true
    · simp [splitOnStrF, h]
    · simp only [splitOnStrF, if_neg h]
      cases s with
      | nil => simp
      | cons a rest => exact consHead_ne_nil a _

theorem consHead_length {l : List (List Char)} (a : Char) (h : l ≠ []) :
    (consHead a l).length = l.length := by
  cases l with
  | nil => exact absurd rfl h
  | cons p ps => rfl

theorem two_le_splitOnStrF_length {sep : List Char} (hsep : sep ≠ []) :
    ∀ fuel s, s.length < fuel → hasSub sep s = true →
      2 ≤ (splitOnStrF sep fuel s).length := by
  intro fuel
  induction fuel with
  | zero => intro s hlen _; exact absurd hlen (by simp)
  | succ fuel ih =>
    intro s hlen hsub
    by_cases hg : sep ≠ [] ∧ hasPfx sep s = true
    · simp only [splitOnStrF, if_pos hg, List.length_cons]
      have h1 : 1 ≤ (splitOnStrF sep fuel (s.drop sep.length)).length :=
        List.length_pos.mpr (splitOnStrF_ne_nil sep fuel _)
      omega
    · simp only [splitOnStrF, if_neg hg]
      cases s with
      | nil =>
        exfalso
        have : sep = [] := hasSub_nil_right hsub
        exact hsep this
      | cons a rest =>
        have hnp : hasPfx sep (a :: rest) = false := by
          cases hpv : hasPfx sep (a :: rest)
          · rfl
          · exact absurd ⟨hsep, hpv⟩ hg
        have hsub' : hasSub sep rest = true := by
          have := hsub
          simp only [hasSub, hnp, Bool.false_or] at this
          exact this
        have hlen' : rest.length < fuel := by
          simp only [List.length_cons] at hlen
          omega
        have h2 := ih rest hlen' hsub'
        rw [consHead_length a (splitOnStrF_ne_nil sep fuel rest)]
        exact h2

theorem two_le_splitOnStr_length {sep s : List Char} (hsep : sep ≠ [])
    (hsub : hasSub sep s = true) : 2 ≤ (splitOnStr sep s).length :=
  two_le_splitOnStrF_length hsep _ s (Nat.lt_succ_self _) hsub

namespace GoPlugin

/-- When the `"go\"` marker occurs in the segment, `[1]` exists and the
extraction returns a value instead of raising. -/
theorem extract_version_ok {part : List Char}
    (h : hasSub (str "go\\") part = true) :
    ∃ out, extract_version part = .ok out := by
  have hlen : 2 ≤ (splitOnStr (str "go\\") part).length :=
    two_le_splitOnStr_length (by decide) h
  have h1 : 1 < (splitOnStr (str "go\\") part).length := hlen
  refine ⟨(splitOnStr (str "\\bin") ((splitOnStr (str "go\\") part)[1])).headD [], ?_⟩
  rw [extract_version, List.getElem?_eq_getElem h1]

/-- The scan never raises when every signature-matching segment carries the
`"go\"` marker. -/
theorem first_go_match_total {l : List (List Char)}
    (h : ∀ p ∈ l, goSig p = true → hasSub (str "go\\") p = true) :
    ∃ r, first_go_match l = .ok r := by
  induction l with
  | nil => exact ⟨none, rfl⟩
  | cons p ps ih =>
    by_cases hp : goSig p = true
    · rcases extract_version_ok (h p (List.mem_cons_self p ps) hp) with ⟨out, hout⟩
      refine ⟨some out, ?_⟩
      simp [first_go_match, hp, hout]
    · have : first_go_match (p :: ps) = first_go_match ps := by
        simp [first_go_match, hp]
      rw [this]
      exact ih (fun q hq => h q (List.mem_cons_of_mem p hq))

/-- Every segment left by `_remove_all_go_paths` fails the go signature. -/
theorem remove_all_segments_no_sig (reg : Option (List Char)) :
    (pathSegs (remove_all_go_paths reg)).all (fun q => !goSig q) = true := by
  cases reg with
  | none => rfl
  | some s =>
    show (splitOnChar ';' (remove_all_go_paths_str s)).all (fun q => !goSig q) = true
    set fl := (splitOnChar ';' s).filter keepGo with hfl
    have hsig : ∀ q ∈ fl, goSig q = false := by
      intro q hq
      have hk := (List.mem_filter.mp hq).2
      rw [keepGo_eq_not_goSig] at hk
      cases hg : goSig q
      · rfl
      · rw [hg] at hk; exact absurd hk (by simp)
    rcases hflcases : fl with _ | ⟨q, fl'⟩
    · show (splitOnChar ';' (joinSep ';' fl)).all (fun q => !goSig q) = true
      rw [hflcases]
      decide
    · show (splitOnChar ';' (joinSep ';' fl)).all (fun q => !goSig q) = true
      have hfree : ∀ q ∈ fl, ';' ∉ q := fun r hr =>
        not_mem_of_mem_splitOnChar (List.mem_of_mem_filter hr)
      rw [splitOnChar_joinSep (hflcases ▸ (by simp)) hfree]
      rw [List.all_eq_true]
      intro q hq
      simp [hsig q hq]

end GoPlugin

/-! ### Claim theorems -/

/-- Claim C1 (counterexample): with go1.22.3 installed and active (its bin
directory is the matching persisted-PATH segment), a successful
`uninstall("go1.22.3")` returns the success message and removes the
version from `get_installed_versions`, yet `get_current_version` still
returns `go1.22.3` instead of none — the persisted PATH is untouched. -/
theorem claim_c1_counterexample :
    (GoPlugin.uninstall (str "go1.22.3") none goStA).1 = str "已卸载 Go go1.22.3" ∧
    GoPlugin.get_installed_versions (GoPlugin.uninstall (str "go1.22.3") none goStA).2
      = [str "go1.21.0"] ∧
    GoPlugin.get_current_version
        ((GoPlugin.uninstall (str "go1.22.3") none goStA).2).regPath
      = .ok (some (str "go1.22.3")) := by
  refine ⟨rfl, by decide, by decide⟩

/-- Claim C1 (amended): a successful `uninstall(v)` of an installed version
removes v's directory and v disappears from `get_installed_versions`, but
the persisted PATH is left untouched, so `get_current_version` is
unchanged — in particular, when v was active it is still reported. -/
theorem claim_c1_amended (v : List Char) (st : GoPlugin.St)
    (hv : v ∈ dirNames st.dirs) :
    (GoPlugin.uninstall v none st).1 = str "已卸载 Go " ++ v ∧
    v ∉ GoPlugin.get_installed_versions (GoPlugin.uninstall v none st).2 ∧
    ((GoPlugin.uninstall v none st).2).regPath = st.regPath ∧
    GoPlugin.get_current_version ((GoPlugin.uninstall v none st).2).regPath
      = GoPlugin.get_current_version st.regPath := by
  have h1 : GoPlugin.uninstall v none st
      = (str "已卸载 Go " ++ v,
         { st with dirs := st.dirs.filter (fun d => !(d.1 == v)) }) := by
    rw [GoPlugin.uninstall, if_pos hv]
  rw [h1]
  refine ⟨rfl, ?_, rfl, rfl⟩
  intro hmem
  have hmem2 : v ∈ dirNames (st.dirs.filter (fun d => !(d.1 == v))) :=
    List.mem_of_mem_filter hmem
  rcases List.mem_map.mp hmem2 with ⟨d, hd, hfst⟩
  have hpred := (List.mem_filter.mp hd).2
  rw [hfst] at hpred
  simp at hpred

/-- Claim C1 (amended, witness): instance at go1.22.3 active in `goStA`. -/
theorem claim_c1_witness :
    (str "go1.22.3") ∈ dirNames goStA.dirs ∧
    ((GoPlugin.uninstall (str "go1.22.3") none goStA).1 = str "已卸载 Go " ++ str "go1.22.3" ∧
     (str "go1.22.3") ∉ GoPlugin.get_installed_versions
        (GoPlugin.uninstall (str "go1.22.3") none goStA).2 ∧
     ((GoPlugin.uninstall (str "go1.22.3") none goStA).2).regPath = goStA.regPath ∧
     GoPlugin.get_current_version
        ((GoPlugin.uninstall (str "go1.22.3") none goStA).2).regPath
       = GoPlugin.get_current_version goStA.regPath) :=
  ⟨by decide, claim_c1_amended (str "go1.22.3") goStA (by decide)⟩

/-- Claim C2: `use_version(v)` is idempotent on the whole plugin state
(in particular on the persisted PATH): for an installed version v and any
initial state, the state after the second call equals the state after the
first. -/
theorem claim_c2_use_version_idempotent (pk v : List Char) (st : GoPlugin.St)
    (hv : v ∈ dirNames st.dirs) (hp : ';' ∉ pk) (hvc : ';' ∉ v) :
    (GoPlugin.use_version pk v (GoPlugin.use_version pk v st).2).2
      = (GoPlugin.use_version pk v st).2 := by
  obtain ⟨hB0, hBc, hBs⟩ := GoPlugin.use_bin_path_props pk v hp hvc
  have key := GoPlugin.use_transform_idem (GoPlugin.use_bin_path pk v)
    hB0 hBc hBs st.regPath
  simp [GoPlugin.use_version, hv, key]

/-- Claim C2 (witness): instance at go1.22.3 in `goStA`. -/
theorem claim_c2_witness :
    (str "go1.22.3") ∈ dirNames goStA.dirs ∧ ';' ∉ str "C:\\pkgs" ∧
    ';' ∉ str "go1.22.3" ∧
    (GoPlugin.use_version (str "C:\\pkgs") (str "go1.22.3")
        (GoPlugin.use_version (str "C:\\pkgs") (str "go1.22.3") goStA).2).2
      = (GoPlugin.use_version (str "C:\\pkgs") (str "go1.22.3") goStA).2 :=
  ⟨by decide, by decide, by decide,
   claim_c2_use_version_idempotent (str "C:\\pkgs") (str "go1.22.3") goStA
     (by decide) (by decide) (by decide)⟩

/-- Claim C3: after `use_version(v1)` then `use_version(v2)` (both
installed, v1 ≠ v2), the persisted PATH splits into segments of which
exactly one matches the go signature — v2's bin directory — and none is
v1's bin directory. -/
theorem claim_c3_use_version_unique (pk v1 v2 : List Char) (st : GoPlugin.St)
    (h1 : v1 ∈ dirNames st.dirs) (h2 : v2 ∈ dirNames st.dirs) (hne : v1 ≠ v2)
    (hp : ';' ∉ pk) (hc1 : ';' ∉ v1) (hc2 : ';' ∉ v2) :
    ∃ s, ((GoPlugin.use_version pk v2 (GoPlugin.use_version pk v1 st).2).2).regPath
        = some s
      ∧ (splitOnChar ';' s).filter GoPlugin.goSig = [GoPlugin.use_bin_path pk v2]
      ∧ GoPlugin.use_bin_path pk v1 ∉ splitOnChar ';' s := by
  obtain ⟨hB0, hBc, hBs⟩ := GoPlugin.use_bin_path_props pk v2 hp hc2
  obtain ⟨hB0', hBc', hBs'⟩ := GoPlugin.use_bin_path_props pk v1 hp hc1
  have hdirs : ((GoPlugin.use_version pk v1 st).2).dirs = st.dirs := by
    rw [GoPlugin.use_version, if_pos h1]
  have h2' : v2 ∈ dirNames ((GoPlugin.use_version pk v1 st).2).dirs := by
    rw [hdirs]; exact h2
  have hreg : ((GoPlugin.use_version pk v2 (GoPlugin.use_version pk v1 st).2).2).regPath
      = GoPlugin.update_environment_variable (GoPlugin.use_bin_path pk v2)
          (GoPlugin.remove_all_go_paths ((GoPlugin.use_version pk v1 st).2).regPath) := by
    rw [GoPlugin.use_version, if_pos h2']
  rcases GoPlugin.use_transform_unique (GoPlugin.use_bin_path pk v2) hB0 hBc hBs
      ((GoPlugin.use_version pk v1 st).2).regPath with ⟨s, hs, hfilter⟩
  refine ⟨s, by rw [hreg, hs], hfilter, ?_⟩
  intro hmem
  have hB1mem : GoPlugin.use_bin_path pk v1 ∈ (splitOnChar ';' s).filter GoPlugin.goSig :=
    List.mem_filter.mpr ⟨hmem, hBs'⟩
  rw [hfilter] at hB1mem
  exact hne (GoPlugin.use_bin_path_inj (List.mem_singleton.mp hB1mem))

/-- Claim C3 (witness): instance switching go1.22.3 → go1.21.0 in `goStA`. -/
theorem claim_c3_witness :
    (str "go1.22.3") ∈ dirNames goStA.dirs ∧
    (str "go1.21.0") ∈ dirNames goStA.dirs ∧
    str "go1.22.3" ≠ str "go1.21.0" ∧
    ';' ∉ str "C:\\pkgs" ∧ ';' ∉ str "go1.22.3" ∧ ';' ∉ str "go1.21.0" ∧
    (∃ s, ((GoPlugin.use_version (str "C:\\pkgs") (str "go1.21.0")
          (GoPlugin.use_version (str "C:\\pkgs") (str "go1.22.3") goStA).2).2).regPath
        = some s
      ∧ (splitOnChar ';' s).filter GoPlugin.goSig
          = [GoPlugin.use_bin_path (str "C:\\pkgs") (str "go1.21.0")]
      ∧ GoPlugin.use_bin_path (str "C:\\pkgs") (str "go1.22.3") ∉ splitOnChar ';' s) :=
  ⟨by decide, by decide, by decide, by decide, by decide, by decide,
   claim_c3_use_version_unique (str "C:\\pkgs") (str "go1.22.3") (str "go1.21.0") goStA
     (by decide) (by decide) (by decide) (by decide) (by decide) (by decide)⟩

/-- Claim C5 (counterexample): the persisted PATH value `"gobin"` has a
segment containing both tokens but not the `"go\"` construction pattern,
and `get_current_version` raises `IndexError` on it instead of returning a
value. -/
theorem claim_c5_counterexample :
    GoPlugin.get_current_version (some (str "gobin")) = .exn .indexError := by
  decide

/-- Claim C5 (amended): `get_current_version` returns a tag or none — and
never raises — on an absent PATH and on every PATH whose
signature-matching segments all contain the `"go\"` construction marker;
a matching segment without the marker makes it raise `IndexError`. -/
theorem claim_c5_amended :
    GoPlugin.get_current_version none = .ok none ∧
    ∀ s : List Char,
      (∀ p ∈ splitOnChar ';' s, GoPlugin.goSig p = true →
        hasSub (str "go\\") p = true) →
      ∃ r, GoPlugin.get_current_version (some s) = .ok r := by
  refine ⟨rfl, ?_⟩
  intro s h
  exact GoPlugin.first_go_match_total h

/-- Claim C5 (amended, witness): instance at a well-formed PATH value. -/
theorem claim_c5_witness :
    (∀ p ∈ splitOnChar ';' (str "C:\\w;C:\\pkgs\\go\\go1.22.3\\bin"),
      GoPlugin.goSig p = true → hasSub (str "go\\") p = true) ∧
    ∃ r, GoPlugin.get_current_version
        (some (str "C:\\w;C:\\pkgs\\go\\go1.22.3\\bin")) = .ok r :=
  ⟨by decide, claim_c5_amended.2 _ (by decide)⟩

/-- Claim C10: a successful go `install(v)` whose extracted bin directory
exists returns the success message, rewrites the persisted PATH with
`_remove_all_go_paths` (leaving no go-signature segment, so
`get_current_version` reads none), and puts the new bin directory only
into the process environment PATH. -/
theorem claim_c10_install_not_path_neutral (pk v : List Char) (n : Nat)
    (st : GoPlugin.St) :
    (GoPlugin.install pk v (.extracted n true) st).1
        = .ok (str "Go " ++ v ++ str " 安装完成") ∧
    ((GoPlugin.install pk v (.extracted n true) st).2).regPath
        = GoPlugin.remove_all_go_paths st.regPath ∧
    (pathSegs ((GoPlugin.install pk v (.extracted n true) st).2).regPath).all
        (fun q => !GoPlugin.goSig q) = true ∧
    GoPlugin.get_current_version
        ((GoPlugin.install pk v (.extracted n true) st).2).regPath = .ok none ∧
    ((GoPlugin.install pk v (.extracted n true) st).2).envPath
        = some (GoPlugin.install_bin_path pk v ++ ';' :: st.envPath.getD []) := by
  refine ⟨rfl, rfl, ?_, ?_, rfl⟩
  · exact GoPlugin.remove_all_segments_no_sig st.regPath
  · exact GoPlugin.get_current_version_remove_all st.regPath

/-- Claim C4 (counterexample): on an absent file, `_is_valid_zip` does not
return a boolean — the `FileNotFoundError` from opening the path escapes
the `except zipfile.BadZipFile` handler. -/
theorem claim_c4_counterexample :
    is_valid_zip demoZipLib .absent = .exn .fileNotFound := rfl

/-- Claim C4 (amended): `_is_valid_zip` returns false whenever opening or
checking the archive raises `BadZipFile` (empty/corrupt input) or
`testzip` reports a corrupt entry, and true for an intact archive — but
it raises `FileNotFoundError` when the file is absent, since only
`BadZipFile` is caught. -/
theorem claim_c4_amended (lib : ZipLib) :
    is_valid_zip lib .absent = .exn .fileNotFound ∧
    (∀ bs, lib.openTest bs = .exn .badZipFile →
      is_valid_zip lib (.present bs) = .ok false) ∧
    (∀ bs, lib.openTest bs = .ok none → is_valid_zip lib (.present bs) = .ok true) ∧
    (∀ bs bad, lib.openTest bs = .ok (some bad) →
      is_valid_zip lib (.present bs) = .ok false) := by
  refine ⟨rfl, ?_, ?_, ?_⟩
  · intro bs h; simp [is_valid_zip, h]
  · intro bs h; simp [is_valid_zip, h]
  · intro bs bad h; simp [is_valid_zip, h]

/-- Claim C4 (amended, witness): the empty file is a `BadZipFile` under
`demoZipLib` and the validator returns false on it; the absent file makes
it raise. -/
theorem claim_c4_witness :
    demoZipLib.openTest [] = .exn .badZipFile ∧
    is_valid_zip demoZipLib (.present []) = .ok false ∧
    is_valid_zip demoZipLib .absent = .exn .fileNotFound :=
  ⟨rfl, (claim_c4_amended demoZipLib).2.1 [] rfl, (claim_c4_amended demoZipLib).1⟩

/-- Claim C6 (counterexample): go `install("1.0.0")` returns its success
message and creates the directory, yet `get_installed_versions` does not
contain "1.0.0" because the listing keeps only names starting with "go". -/
theorem claim_c6_counterexample :
    (GoPlugin.install (str "C:\\pkgs") (str "1.0.0") (.extracted 3 false) goStEmpty).1
      = .ok (str "Go 1.0.0 安装完成") ∧
    (str "1.0.0") ∈ dirNames ((GoPlugin.install (str "C:\\pkgs") (str "1.0.0")
        (.extracted 3 false) goStEmpty).2).dirs ∧
    GoPlugin.get_installed_versions ((GoPlugin.install (str "C:\\pkgs") (str "1.0.0")
        (.extracted 3 false) goStEmpty).2) = [] := by
  refine ⟨by decide, by decide, by decide⟩

/-- Claim C6 (amended): for the go plugin and a version tag starting with
"go" (as all go release tags do), an uninstalled v is not listed; after a
successful synchronous install, v is listed and its directory holds the
extracted entries (non-empty). The node plugin's `install` merely starts
the download and returns with the filesystem unchanged. -/
theorem claim_c6_amended (pk v : List Char) (n : Nat) (b : Bool)
    (st : GoPlugin.St) (hpre : hasPfx GoPlugin.goTok v = true)
    (hnot : v ∉ dirNames st.dirs) (hn : 0 < n) :
    v ∉ GoPlugin.get_installed_versions st ∧
    (GoPlugin.install pk v (.extracted n b) st).1
      = .ok (str "Go " ++ v ++ str " 安装完成") ∧
    v ∈ GoPlugin.get_installed_versions (GoPlugin.install pk v (.extracted n b) st).2 ∧
    (v, n) ∈ ((GoPlugin.install pk v (.extracted n b) st).2).dirs ∧ 0 < n ∧
    (∀ w : List Char, ∀ nst : NodePlugin.St,
      NodePlugin.install w nst = (str "下载已开始", nst)) := by
  have hdirs : ((GoPlugin.install pk v (.extracted n b) st).2).dirs
      = upsertDir v n st.dirs := by cases b <;> rfl
  have hmsg : (GoPlugin.install pk v (.extracted n b) st).1
      = .ok (str "Go " ++ v ++ str " 安装完成") := by cases b <;> rfl
  refine ⟨?_, hmsg, ?_, ?_, hn, fun w nst => rfl⟩
  · intro hmem
    exact hnot (List.mem_of_mem_filter hmem)
  · rw [GoPlugin.get_installed_versions, hdirs]
    refine List.mem_filter.mpr ⟨?_, hpre⟩
    rw [dirNames, upsertDir, List.map_append]
    exact List.mem_append.mpr (Or.inr (by simp))
  · rw [hdirs, upsertDir]
    exact List.mem_append.mpr (Or.inr (by simp))

/-- Claim C6 (amended, witness): instance installing go1.20.1 into the
empty state. -/
theorem claim_c6_witness :
    hasPfx GoPlugin.goTok (str "go1.20.1") = true ∧
    (str "go1.20.1") ∉ dirNames goStEmpty.dirs ∧ 0 < 3 ∧
    ((str "go1.20.1") ∉ GoPlugin.get_installed_versions goStEmpty ∧
     (GoPlugin.install (str "C:\\pkgs") (str "go1.20.1") (.extracted 3 false) goStEmpty).1
       = .ok (str "Go " ++ str "go1.20.1" ++ str " 安装完成") ∧
     (str "go1.20.1") ∈ GoPlugin.get_installed_versions
        (GoPlugin.install (str "C:\\pkgs") (str "go1.20.1") (.extracted 3 false) goStEmpty).2 ∧
     (str "go1.20.1", 3) ∈ ((GoPlugin.install (str "C:\\pkgs") (str "go1.20.1")
        (.extracted 3 false) goStEmpty).2).dirs ∧ 0 < 3 ∧
     (∀ w : List Char, ∀ nst : NodePlugin.St,
       NodePlugin.install w nst = (str "下载已开始", nst))) :=
  ⟨by decide, by decide, by decide,
   claim_c6_amended (str "C:\\pkgs") (str "go1.20.1") 3 false goStEmpty
     (by decide) (by decide) (by decide)⟩

/-- Claim C7 (counterexample): when the HTTP collaborator returns an error
string, node's `DownloadThread.run` emits the terminal `finished` signal
twice for the same job. -/
theorem claim_c7_counterexample :
    ((NodeDownloadThread.run (.errString (str "boom"))).filter isTerminal).length
      = 2 := by decide

/-- Claim C7 (amended): go's `run` emits exactly one terminal signal on
every outcome; node's `run` never emits both a success and a failure and
emits success at most once, but emits between one and two terminal
signals — two (both failures) exactly in the error-string case. -/
theorem claim_c7_amended (r : HttpGetResult) :
    ((GoDownloadThread.run r).filter isTerminal).length = 1 ∧
    ((NodeDownloadThread.run r).filter isSuccessSig).length ≤ 1 ∧
    (((NodeDownloadThread.run r).filter isSuccessSig).length = 0 ∨
      ((NodeDownloadThread.run r).filter isFailureSig).length = 0) ∧
    1 ≤ ((NodeDownloadThread.run r).filter isTerminal).length ∧
    ((NodeDownloadThread.run r).filter isTerminal).length ≤ 2 := by
  rcases r with m | (_ | e)
  · exact ⟨rfl, Nat.zero_le 1, Or.inl rfl, Nat.le_succ 1, Nat.le_refl 2⟩
  · exact ⟨rfl, Nat.le_refl 1, Or.inr rfl, Nat.le_refl 1, Nat.le_succ 1⟩
  · exact ⟨rfl, Nat.zero_le 1, Or.inl rfl, Nat.le_refl 1, Nat.le_succ 1⟩

/-- Claim C8 (counterexample): go `install` on an invalid archive reports
the failure and creates no directory, but the downloaded zip is still in
`go_dir` — it is not removed. -/
theorem claim_c8_counterexample :
    (GoPlugin.install (str "C:\\pkgs") (str "go1.22.3") .invalidZip goStEmpty).1
      = .ok (str "下载的文件无效") ∧
    GoPlugin.zip_filename (str "go1.22.3")
      ∈ ((GoPlugin.install (str "C:\\pkgs") (str "go1.22.3") .invalidZip goStEmpty).2).files ∧
    ((GoPlugin.install (str "C:\\pkgs") (str "go1.22.3") .invalidZip goStEmpty).2).dirs
      = [] := by
  refine ⟨rfl, by decide, rfl⟩

/-- Claim C8 (amended): on validator failure both plugins report an
invalid-archive failure and create no install directory, but neither
removes the downloaded file: go returns its failure message with the zip
still in `go_dir`; node raises with its state unchanged. -/
theorem claim_c8_amended (pk v cv : List Char) (st : GoPlugin.St)
    (nst : NodePlugin.St) :
    GoPlugin.install pk v .invalidZip st
      = (.ok (str "下载的文件无效"),
         { st with files := addFile (GoPlugin.zip_filename v) st.files }) ∧
    NodePlugin.handle_download_complete cv true .invalidZip nst
      = (.exn (.generic (str "下载的文件不是有效的 ZIP 文件")), nst) :=
  ⟨rfl, rfl⟩

/-- Claim C9 (counterexample): after a failed extraction that left one
entry behind, the partial directory for go1.22.3 exists and is even
reported by `get_installed_versions`. -/
theorem claim_c9_counterexample :
    (GoPlugin.install (str "C:\\pkgs") (str "go1.22.3") (.extractFailed (some 1)) goStEmpty).1
      = .ok (str "解压失败") ∧
    (str "go1.22.3") ∈ GoPlugin.get_installed_versions
        ((GoPlugin.install (str "C:\\pkgs") (str "go1.22.3")
          (.extractFailed (some 1)) goStEmpty).2) := by
  refine ⟨rfl, by decide⟩

/-- Claim C9 (amended): on extraction failure neither plugin deletes the
partial directory: go reports "解压失败" leaving whatever `extractall`
created in place; node propagates the exception with the partial
directory in place. -/
theorem claim_c9_amended (pk v cv m : List Char) (k : Nat) (st : GoPlugin.St)
    (nst : NodePlugin.St) :
    GoPlugin.install pk v (.extractFailed (some k)) st
      = (.ok (str "解压失败"),
         { st with files := addFile (GoPlugin.zip_filename v) st.files,
                   dirs := upsertDir v k st.dirs }) ∧
    GoPlugin.install pk v (.extractFailed none) st
      = (.ok (str "解压失败"),
         { st with files := addFile (GoPlugin.zip_filename v) st.files }) ∧
    NodePlugin.handle_download_complete cv true (.extractRaises (some k) m) nst
      = (.exn (.generic m), { nst with dirs := upsertDir cv k nst.dirs }) :=
  ⟨rfl, rfl, rfl⟩
